import Mathlib

/-!
# Verification of the transaction-pool interface layer

Shallow embedding of `transaction-pool/src/lib.rs`: the value types
(`Address`, `U256`, `H256`, `VerifiedTransaction`), the pluggable
boundaries (`Verifier`, `Listener`, `Scoring`, `Ready`) and the
`Readiness` conversion, together with a model of the pool engine
(whose module `pool` is not part of the provided sources) built from
the design document.

Machine integers (`u64`) are modelled as `Nat`; the sources only wrap
them in newtypes and never perform arithmetic on them, so no overflow
accounting is needed.
-/

namespace TxPool

/-- `struct Address(u64)` — newtype over a 64-bit word. -/
structure Address where
  val : Nat
deriving DecidableEq, Repr

/-- `struct U256(u64)` — newtype over a 64-bit word (the crate's stub of a
256-bit quantity). -/
structure U256 where
  val : Nat
deriving DecidableEq, Repr

/-- `struct H256(u64)` — newtype over a 64-bit word standing in for a hash. -/
structure H256 where
  val : Nat
deriving DecidableEq, Repr

/-- `struct UnverifiedTransaction;` — a unit struct in the sources. -/
structure UnverifiedTransaction where
deriving DecidableEq, Repr

/-- `struct VerifiedTransaction` with fields `hash`, `nonce`, `gas_price`,
`gas`, `sender`, `insertion_id`, exactly as declared in the source. -/
structure VerifiedTransaction where
  hash : H256
  nonce : U256
  gas_price : U256
  gas : U256
  sender : Address
  insertion_id : Nat
deriving DecidableEq, Repr

namespace VerifiedTransaction

/-- `fn hash(&self) -> H256 { self.hash.clone() }` -/
def hashOf (tx : VerifiedTransaction) : H256 := tx.hash

/-- `fn mem_usage(&self) -> usize { self.nonce.0 as usize }` — the `u64`
to `usize` cast is the identity on a 64-bit target. -/
def mem_usage (tx : VerifiedTransaction) : Nat := tx.nonce.val

/-- `fn sender(&self) -> Address { self.sender.clone() }` -/
def senderOf (tx : VerifiedTransaction) : Address := tx.sender

end VerifiedTransaction

/-- `enum Readiness { Stalled, Ready, Future }` -/
inductive Readiness where
  | Stalled : Readiness
  | Ready : Readiness
  | Future : Readiness
deriving DecidableEq, Repr

/-- `impl From<bool> for Readiness`: `if b { Ready } else { Future }`. -/
def Readiness.fromBool (b : Bool) : Readiness :=
  if b then Readiness.Ready else Readiness.Future

/-- `enum ScoringChoice { RejectNew, ReplaceOld, InsertNew }` -/
inductive ScoringChoice where
  | RejectNew : ScoringChoice
  | ReplaceOld : ScoringChoice
  | InsertNew : ScoringChoice
deriving DecidableEq, Repr

/-- `enum ScoringChange { InsertedAt(usize), RemovedAt(usize), ReplacedAt(usize) }` -/
inductive ScoringChange where
  | InsertedAt : Nat → ScoringChange
  | RemovedAt : Nat → ScoringChange
  | ReplacedAt : Nat → ScoringChange
deriving DecidableEq, Repr

/-- The capabilities a `Scoring` implementation's associated `Score` type is
required to provide.  The source line is
`type Score: cmp::Ord + Clone + Default + fmt::Debug;`. -/
inductive ScoreCapability where
  | ord : ScoreCapability
  | clone : ScoreCapability
  | defaultCtor : ScoreCapability
  | debugFmt : ScoreCapability
deriving DecidableEq, Repr

/-- The trait-bound list on `Scoring::Score`, transcribed from the source
declaration `type Score: cmp::Ord + Clone + Default + fmt::Debug;`. -/
def scoringScoreBounds : List ScoreCapability :=
  [ScoreCapability.ord, ScoreCapability.clone,
   ScoreCapability.defaultCtor, ScoreCapability.debugFmt]

/-- `trait Scoring`, bundled as a structure: the associated `Score` type
with the capabilities demanded of it (total order for `cmp::Ord`, a default
value for `Default`, a formatter for `fmt::Debug`; `Clone` is implicit for
Lean values), and the four required operations. -/
structure Scoring where
  Score : Type
  scoreOrd : LinearOrder Score
  scoreDefault : Score
  scoreDebug : Score → String
  compareTx : VerifiedTransaction → VerifiedTransaction → Ordering
  choose : VerifiedTransaction → VerifiedTransaction → ScoringChoice
  update_scores : List VerifiedTransaction → List Score → ScoringChange → List Score
  should_replace : VerifiedTransaction → VerifiedTransaction → Bool

/-- `trait Verifier { type Error; fn verify_transaction(&self, tx) ->
Result<VerifiedTransaction, Self::Error>; }` — modelled with the error type
as a parameter and `Result` as `Except`. -/
structure Verifier (E : Type) where
  verify_transaction : UnverifiedTransaction → Except E VerifiedTransaction

/-- `NoopVerifier`'s method body is `unimplemented!()`: it panics on every
input instead of returning.  A panicking call is modelled as `Option.none`;
a normal `Result` return would be `some`.  (`type Error = ();`.) -/
def noopVerifierRun : UnverifiedTransaction → Option (Except Unit VerifiedTransaction) :=
  fun _ => none

/-- `trait Listener`, with a listener's private state as `S`; each hook
mutates that state.  Every hook's default body is empty (`{}`), i.e. it
leaves the state unchanged and performs no action — these defaults are the
`:=` fields below, transcribed from the source. -/
structure Listener (S : Type) where
  added : S → VerifiedTransaction → Option VerifiedTransaction → S := fun s _ _ => s
  rejected : S → VerifiedTransaction → S := fun s _ => s
  dropped : S → VerifiedTransaction → S := fun s _ => s
  invalid : S → VerifiedTransaction → S := fun s _ => s
  cancelled : S → VerifiedTransaction → S := fun s _ => s

/-- A listener built entirely from the trait's default hook bodies. -/
def Listener.defaults (S : Type) : Listener S := {}

/-- `struct NoopListener; impl Listener for NoopListener {}` — a stateless
listener that overrides none of the hooks. -/
def NoopListener : Listener Unit := {}

/-- `trait Ready { fn is_ready(&mut self, tx) -> Readiness; }` — the oracle's
mutable state is `S`; a call returns the verdict and the updated state. -/
structure ReadyOracle (S : Type) where
  is_ready : S → VerifiedTransaction → Readiness × S

/-- The blanket impl `impl<F> Ready for F where F: FnMut(&VerifiedTransaction)
-> Readiness`: a mutable closure (captured state `S`, body `f`) is an oracle
whose `is_ready` body is `(*self)(tx)` — plain application of the closure. -/
def readyOfClosure (S : Type) (f : S → VerifiedTransaction → Readiness × S) :
    ReadyOracle S :=
  ⟨fun s tx => f s tx⟩

/-!
## Pool engine model

Modelled from the spec: the pool engine itself (the crate's `mod pool`,
re-exported as `pool::Pool`) is not among the provided sources — only its
interface layer is.  The definitions below follow the design document's
§4.4 (insert: conflict resolution via `choose`, placement via `compare`,
capacity enforcement by evicting the tail of the global order, with the
new transaction's own eviction reported as rejection) and §4.5 (explicit
removal by content hash).  The Scoring Policy is modelled with a
position-independent score function over a linearly ordered `Score` type;
`compare` is the induced best-first (highest score first) comparison, and
`update_scores` keeps `score[i]` equal to the score of `global_order[i]`.
Capacity is the maximum transaction count; the global order and the score
table are two separate parallel lists updated in lockstep, as described.
-/

section PoolModel

variable {Score : Type} [LinearOrder Score]

/-- Modelled from the spec: the Scoring Policy's `compare` for a
position-independent score function, best-first — an entry with the higher
score compares as earlier (`lt`). -/
def scoreCompare (score : VerifiedTransaction → Score)
    (a b : VerifiedTransaction) : Ordering :=
  compare (score b) (score a)

/-- `a` may precede `b` in the global order: `compare` does not rank `a`
strictly worse than `b`. -/
def bestFirst (score : VerifiedTransaction → Score)
    (a b : VerifiedTransaction) : Prop :=
  scoreCompare score a b ≠ Ordering.gt

/-- Index at which a new transaction is placed in the global order: after
every strictly better entry and after existing entries of equal score
(stable placement). -/
def insertPos (score : VerifiedTransaction → Score) (tx : VerifiedTransaction) :
    List VerifiedTransaction → Nat
  | [] => 0
  | t :: ts => if score t < score tx then 0 else insertPos score tx ts + 1

/-- Insertion of a new transaction into the global order at `insertPos`. -/
def insertSorted (score : VerifiedTransaction → Score) (tx : VerifiedTransaction) :
    List VerifiedTransaction → List VerifiedTransaction
  | [] => [tx]
  | t :: ts =>
    if score t < score tx then tx :: t :: ts else t :: insertSorted score tx ts

/-- Insertion into the score table at a given index (the `Vec::insert`
shift of the parallel table). -/
def insertAt {α : Type} : Nat → α → List α → List α
  | 0, a, l => a :: l
  | _ + 1, a, [] => [a]
  | n + 1, a, b :: l => b :: insertAt n a l

/-- Locate an existing occupant of the (sender, nonce) slot in the global
order, with its index. -/
def findConflict (sender : Address) (nonce : U256) :
    List VerifiedTransaction → Option (Nat × VerifiedTransaction)
  | [] => none
  | t :: ts =>
    if t.sender = sender ∧ t.nonce = nonce then some (0, t)
    else (findConflict sender nonce ts).map (fun p => (p.1 + 1, p.2))

/-- Index of the transaction with the given content hash, if present. -/
def findIdxByHash (h : H256) : List VerifiedTransaction → Option Nat
  | [] => none
  | t :: ts => if t.hash = h then some 0 else (findIdxByHash h ts).map (· + 1)

/-- The pool aggregate: global order, parallel score table, the running
insertion counter, and the accounting counters for completed fresh inserts,
explicit removals and capacity evictions. -/
structure PoolState (Score : Type) where
  order : List VerifiedTransaction
  scores : List Score
  insertion_counter : Nat
  fresh_inserts : Nat
  removals : Nat
  evictions : Nat
deriving Repr

/-- Result of capacity enforcement: the surviving order and score table,
how many other entries were evicted (`dropped`), and whether the newly
inserted transaction itself was the eviction target (reported as
rejection, per §4.4 step 6). -/
structure CapacityResult (Score : Type) where
  order : List VerifiedTransaction
  scores : List Score
  evicted : Nat
  newRejected : Bool
deriving Repr

/-- §4.4 step 6: while the pool exceeds the configured maximum count, evict
the worst-ranked entry (the tail of the global order), dropping the score
table's tail in lockstep; if the tail is the newly inserted transaction,
record its removal as a rejection instead of an eviction. -/
def enforceCapacity (max_count : Nat) (tx : VerifiedTransaction)
    (order : List VerifiedTransaction) (scores : List Score) :
    CapacityResult Score :=
  if _h : order.length ≤ max_count then ⟨order, scores, 0, false⟩
  else
    let res := enforceCapacity max_count tx order.dropLast scores.dropLast
    if order.getLast? = some tx then ⟨res.order, res.scores, res.evicted, true⟩
    else ⟨res.order, res.scores, res.evicted + 1, res.newRejected⟩
termination_by order.length
decreasing_by
  simp only [List.length_dropLast]
  omega

/-- Outcome of an insert operation, mirroring §4.4 and the error taxonomy
of §7. -/
inductive InsertOutcome where
  | accepted : InsertOutcome
  | replaced : InsertOutcome
  | rejectedNotCompetitive : InsertOutcome
  | rejectedPoolFull : InsertOutcome
deriving DecidableEq, Repr

/-- Shared tail of the insert paths (§4.4 steps 4–7): place the new
transaction in the global order by `compare`, insert its score at the same
index, run capacity enforcement, and update the accounting.  `fresh` is
true when the transaction occupies a previously empty nonce slot. -/
def finishInsert (score : VerifiedTransaction → Score) (max_count : Nat)
    (s : PoolState Score) (order1 : List VerifiedTransaction)
    (scores1 : List Score) (tx : VerifiedTransaction) (fresh : Bool) :
    PoolState Score × InsertOutcome :=
  let p := insertPos score tx order1
  let order2 := insertSorted score tx order1
  let scores2 := insertAt p (score tx) scores1
  let res := enforceCapacity max_count tx order2 scores2
  if res.newRejected then
    (⟨res.order, res.scores, s.insertion_counter + 1, s.fresh_inserts,
      s.removals, s.evictions + res.evicted⟩,
     InsertOutcome.rejectedPoolFull)
  else
    (⟨res.order, res.scores, s.insertion_counter + 1,
      s.fresh_inserts + (if fresh then 1 else 0),
      s.removals, s.evictions + res.evicted⟩,
     if fresh then InsertOutcome.accepted else InsertOutcome.replaced)

/-- §4.4 insert: assign the next insertion sequence number, resolve a
(sender, nonce) conflict through the policy's `choose`, then place and
enforce capacity. -/
def insertTx (score : VerifiedTransaction → Score)
    (choose : VerifiedTransaction → VerifiedTransaction → ScoringChoice)
    (max_count : Nat) (s : PoolState Score) (tx0 : VerifiedTransaction) :
    PoolState Score × InsertOutcome :=
  let tx := { tx0 with insertion_id := s.insertion_counter }
  match findConflict tx.sender tx.nonce s.order with
  | some (i, old) =>
    match choose old tx with
    | ScoringChoice.RejectNew =>
      ({ s with insertion_counter := s.insertion_counter + 1 },
       InsertOutcome.rejectedNotCompetitive)
    | ScoringChoice.ReplaceOld =>
      finishInsert score max_count s (s.order.eraseIdx i) (s.scores.eraseIdx i)
        tx false
    | ScoringChoice.InsertNew =>
      finishInsert score max_count s s.order s.scores tx true
  | none => finishInsert score max_count s s.order s.scores tx true

/-- §4.5 explicit removal by content hash: erase the entry and its score at
the same index; absent hashes are a non-fatal no-op (`NotFound`). -/
def removeTx (s : PoolState Score) (h : H256) : PoolState Score × Bool :=
  match findIdxByHash h s.order with
  | some i =>
    ({ s with
        order := s.order.eraseIdx i,
        scores := s.scores.eraseIdx i,
        removals := s.removals + 1 }, true)
  | none => (s, false)

/-- One caller-visible mutating operation on the pool. -/
inductive PoolOp where
  | insert : VerifiedTransaction → PoolOp
  | remove : H256 → PoolOp
deriving DecidableEq, Repr

/-- The empty pool. -/
def initState (Score : Type) : PoolState Score := ⟨[], [], 0, 0, 0, 0⟩

/-- Apply one operation. -/
def stepPool (score : VerifiedTransaction → Score)
    (choose : VerifiedTransaction → VerifiedTransaction → ScoringChoice)
    (max_count : Nat) (s : PoolState Score) : PoolOp → PoolState Score
  | PoolOp.insert tx => (insertTx score choose max_count s tx).1
  | PoolOp.remove h => (removeTx s h).1

/-- The pool state reached from the empty pool by a sequence of
operations. -/
def runPool (score : VerifiedTransaction → Score)
    (choose : VerifiedTransaction → VerifiedTransaction → ScoringChoice)
    (max_count : Nat) (ops : List PoolOp) : PoolState Score :=
  ops.foldl (stepPool score choose max_count) (initState Score)

/-- The invariants of §3 relevant to the claims: global order sorted
best-first, score table index-aligned with it, size within the configured
maximum, and the size accounting identity. -/
def PoolInv (score : VerifiedTransaction → Score) (max_count : Nat)
    (s : PoolState Score) : Prop :=
  s.order.Sorted (bestFirst score)
  ∧ s.scores = s.order.map score
  ∧ s.order.length ≤ max_count
  ∧ s.fresh_inserts = s.order.length + s.removals + s.evictions

end PoolModel

/-- The assertion that the record's reported resource cost is carried by a
field distinct from its nonce: there would then be two records agreeing on
the nonce but reporting different resource costs. -/
def memUsageDistinctFromNonce : Prop :=
  ∃ t1 t2 : VerifiedTransaction,
    t1.nonce = t2.nonce ∧ t1.mem_usage ≠ t2.mem_usage

/-- The assertion that the `Scoring::Score` associated type demands no
capability beyond total ordering, cloning and default construction. -/
def scoreDemandsOnlyOrdCloneDefault : Prop :=
  ∀ c ∈ scoringScoreBounds,
    c = ScoreCapability.ord ∨ c = ScoreCapability.clone ∨
    c = ScoreCapability.defaultCtor

/-!
## Lemmas about the pool model's building blocks
-/

section PoolLemmas

variable {Score : Type} [LinearOrder Score]

theorem bestFirst_iff (score : VerifiedTransaction → Score)
    (a b : VerifiedTransaction) : bestFirst score a b ↔ score b ≤ score a := by
  unfold bestFirst scoreCompare
  rw [ne_eq, compare_gt_iff_gt, gt_iff_lt, not_lt]

theorem mem_insertSorted (score : VerifiedTransaction → Score)
    (tx u : VerifiedTransaction) (l : List VerifiedTransaction) :
    u ∈ insertSorted score tx l ↔ u = tx ∨ u ∈ l := by
  induction l with
  | nil => simp [insertSorted]
  | cons t ts ih =>
    by_cases hc : score t < score tx
    · simp only [insertSorted, if_pos hc, List.mem_cons]
    · simp only [insertSorted, if_neg hc, List.mem_cons, ih]
      tauto

theorem sorted_insertSorted (score : VerifiedTransaction → Score)
    (tx : VerifiedTransaction) (l : List VerifiedTransaction)
    (hl : l.Sorted (bestFirst score)) :
    (insertSorted score tx l).Sorted (bestFirst score) := by
  induction l with
  | nil =>
    simp [insertSorted, List.Sorted]
  | cons t ts ih =>
    rw [List.sorted_cons] at hl
    obtain ⟨ht, hts⟩ := hl
    by_cases hc : score t < score tx
    · rw [insertSorted, if_pos hc, List.sorted_cons]
      refine ⟨fun b hb => ?_, List.sorted_cons.mpr ⟨ht, hts⟩⟩
      rcases List.mem_cons.mp hb with rfl | hb
      · exact (bestFirst_iff score tx b).mpr hc.le
      · exact (bestFirst_iff score tx b).mpr
          (((bestFirst_iff score t b).mp (ht b hb)).trans hc.le)
    · rw [insertSorted, if_neg hc, List.sorted_cons]
      refine ⟨fun b hb => ?_, ih hts⟩
      rcases (mem_insertSorted score tx b ts).mp hb with rfl | hb
      · exact (bestFirst_iff score t b).mpr (not_lt.mp hc)
      · exact ht b hb

theorem map_insertSorted (score : VerifiedTransaction → Score)
    (tx : VerifiedTransaction) (l : List VerifiedTransaction) :
    (insertSorted score tx l).map score =
      insertAt (insertPos score tx l) (score tx) (l.map score) := by
  induction l with
  | nil => rfl
  | cons t ts ih =>
    by_cases hc : score t < score tx
    · simp [insertSorted, insertPos, if_pos hc, insertAt]
    · simp only [insertSorted, insertPos, if_neg hc, List.map_cons, insertAt, ih]

theorem length_insertSorted (score : VerifiedTransaction → Score)
    (tx : VerifiedTransaction) (l : List VerifiedTransaction) :
    (insertSorted score tx l).length = l.length + 1 := by
  induction l with
  | nil => rfl
  | cons t ts ih =>
    by_cases hc : score t < score tx
    · simp [insertSorted, if_pos hc]
    · simp [insertSorted, if_neg hc, ih]

theorem map_eraseIdx_comm {α β : Type} (f : α → β) (l : List α) (i : Nat) :
    (l.eraseIdx i).map f = (l.map f).eraseIdx i := by
  induction l generalizing i with
  | nil => simp [List.eraseIdx]
  | cons a as ih =>
    cases i with
    | zero => simp [List.eraseIdx]
    | succ n => simp [List.eraseIdx, ih]

theorem sorted_eraseIdx {r : VerifiedTransaction → VerifiedTransaction → Prop}
    {l : List VerifiedTransaction} (hl : l.Sorted r) (i : Nat) :
    (l.eraseIdx i).Sorted r :=
  List.Pairwise.sublist (List.eraseIdx_sublist l i) hl

theorem findConflict_lt_length (sender : Address) (nonce : U256)
    (l : List VerifiedTransaction) (i : Nat) (old : VerifiedTransaction)
    (h : findConflict sender nonce l = some (i, old)) : i < l.length := by
  induction l generalizing i old with
  | nil => simp [findConflict] at h
  | cons t ts ih =>
    by_cases hc : t.sender = sender ∧ t.nonce = nonce
    · rw [findConflict, if_pos hc] at h
      cases h
      simp
    · rw [findConflict, if_neg hc] at h
      cases hf : findConflict sender nonce ts with
      | none => rw [hf] at h; simp at h
      | some p =>
        rw [hf] at h
        simp only [Option.map] at h
        rw [Option.some.injEq, Prod.mk.injEq] at h
        obtain ⟨h1, _h2⟩ := h
        have hp := ih p.1 p.2 (by rw [hf])
        simp only [List.length_cons]
        omega

theorem findIdxByHash_lt_length (h256 : H256) (l : List VerifiedTransaction)
    (i : Nat) (h : findIdxByHash h256 l = some i) : i < l.length := by
  induction l generalizing i with
  | nil => simp [findIdxByHash] at h
  | cons t ts ih =>
    by_cases hc : t.hash = h256
    · rw [findIdxByHash, if_pos hc] at h
      cases h
      simp
    · rw [findIdxByHash, if_neg hc] at h
      cases hf : findIdxByHash h256 ts with
      | none => rw [hf] at h; simp at h
      | some j =>
        rw [hf] at h
        simp only [Option.map] at h
        rw [Option.some.injEq] at h
        have hp := ih j (by rw [hf])
        simp only [List.length_cons]
        omega

omit [LinearOrder Score] in
theorem enforceCapacity_of_le (max_count : Nat) (tx : VerifiedTransaction)
    (order : List VerifiedTransaction) (scores : List Score)
    (h : order.length ≤ max_count) :
    enforceCapacity max_count tx order scores = ⟨order, scores, 0, false⟩ := by
  rw [enforceCapacity, dif_pos h]

omit [LinearOrder Score] in
theorem enforceCapacity_succ (max_count : Nat) (tx : VerifiedTransaction)
    (order : List VerifiedTransaction) (scores : List Score)
    (h : order.length = max_count + 1) :
    enforceCapacity max_count tx order scores =
      if order.getLast? = some tx then
        ⟨order.dropLast, scores.dropLast, 0, true⟩
      else ⟨order.dropLast, scores.dropLast, 1, false⟩ := by
  have h1 : ¬ order.length ≤ max_count := by omega
  have h2 : order.dropLast.length ≤ max_count := by
    rw [List.length_dropLast]; omega
  rw [enforceCapacity, dif_neg h1]
  rw [enforceCapacity_of_le max_count tx _ _ h2]

theorem finishInsert_inv (score : VerifiedTransaction → Score) (max_count : Nat)
    (s : PoolState Score) (order1 : List VerifiedTransaction)
    (scores1 : List Score) (tx : VerifiedTransaction) (fresh : Bool)
    (hsorted : order1.Sorted (bestFirst score))
    (halign : scores1 = order1.map score)
    (hlen : order1.length + (if fresh then 0 else 1) ≤ max_count)
    (hacc : s.fresh_inserts =
      order1.length + (if fresh then 0 else 1) + s.removals + s.evictions) :
    PoolInv score max_count
      (finishInsert score max_count s order1 scores1 tx fresh).1 := by
  have hs2 : (insertSorted score tx order1).Sorted (bestFirst score) :=
    sorted_insertSorted score tx order1 hsorted
  have ha2 : insertAt (insertPos score tx order1) (score tx) scores1 =
      (insertSorted score tx order1).map score := by
    rw [halign, map_insertSorted]
  have hl2 : (insertSorted score tx order1).length = order1.length + 1 :=
    length_insertSorted score tx order1
  unfold finishInsert
  dsimp only
  cases fresh with
  | false =>
    simp only [Bool.false_eq_true, if_false] at hlen hacc
    have hcap : (insertSorted score tx order1).length ≤ max_count := by omega
    rw [enforceCapacity_of_le max_count tx _ _ hcap]
    simp only [Bool.false_eq_true, if_false]
    exact ⟨hs2, ha2, hcap, by dsimp only; omega⟩
  | true =>
    simp only [if_true] at hlen hacc
    by_cases hcap : (insertSorted score tx order1).length ≤ max_count
    · rw [enforceCapacity_of_le max_count tx _ _ hcap]
      simp only [Bool.false_eq_true, if_false, if_true]
      exact ⟨hs2, ha2, hcap, by dsimp only; omega⟩
    · have hl3 : (insertSorted score tx order1).length = max_count + 1 := by
        omega
      rw [enforceCapacity_succ max_count tx _ _ hl3]
      have hs3 : (insertSorted score tx order1).dropLast.Sorted (bestFirst score) :=
        List.Pairwise.sublist (List.dropLast_sublist _) hs2
      have ha3 : (insertAt (insertPos score tx order1) (score tx) scores1).dropLast =
          (insertSorted score tx order1).dropLast.map score := by
        rw [ha2, List.map_dropLast]
      have hl4 : (insertSorted score tx order1).dropLast.length = max_count := by
        rw [List.length_dropLast, hl3]
        omega
      by_cases hlast : (insertSorted score tx order1).getLast? = some tx
      · rw [if_pos hlast]
        simp only [if_true]
        exact ⟨hs3, ha3, le_of_eq hl4, by dsimp only; omega⟩
      · rw [if_neg hlast]
        simp only [Bool.false_eq_true, if_false, if_true]
        exact ⟨hs3, ha3, le_of_eq hl4, by dsimp only; omega⟩

theorem insertTx_inv (score : VerifiedTransaction → Score)
    (choose : VerifiedTransaction → VerifiedTransaction → ScoringChoice)
    (max_count : Nat) (s : PoolState Score) (tx0 : VerifiedTransaction)
    (hinv : PoolInv score max_count s) :
    PoolInv score max_count (insertTx score choose max_count s tx0).1 := by
  obtain ⟨hsorted, halign, hlen, hacc⟩ := hinv
  unfold insertTx
  dsimp only
  split
  · next i old heq =>
    split
    · exact ⟨hsorted, halign, hlen, hacc⟩
    · have hi : i < s.order.length :=
        findConflict_lt_length _ _ _ _ _ heq
      apply finishInsert_inv
      · exact sorted_eraseIdx hsorted i
      · rw [map_eraseIdx_comm, halign]
      · rw [List.length_eraseIdx_of_lt hi]
        simp only [if_neg Bool.false_ne_true]
        omega
      · rw [List.length_eraseIdx_of_lt hi]
        simp only [if_neg Bool.false_ne_true]
        omega
    · apply finishInsert_inv _ _ _ _ _ _ _ hsorted halign
      · simpa using hlen
      · simpa using hacc
  · apply finishInsert_inv _ _ _ _ _ _ _ hsorted halign
    · simpa using hlen
    · simpa using hacc

theorem removeTx_inv (s : PoolState Score) (h : H256)
    (score : VerifiedTransaction → Score) (max_count : Nat)
    (hinv : PoolInv score max_count s) :
    PoolInv score max_count (removeTx s h).1 := by
  obtain ⟨hsorted, halign, hlen, hacc⟩ := hinv
  unfold removeTx
  split
  · next i heq =>
    have hi : i < s.order.length := findIdxByHash_lt_length h s.order i heq
    refine ⟨sorted_eraseIdx hsorted i, ?_, ?_, ?_⟩
    · show s.scores.eraseIdx i = (s.order.eraseIdx i).map score
      rw [map_eraseIdx_comm, halign]
    · show (s.order.eraseIdx i).length ≤ max_count
      have := List.length_eraseIdx_le s.order i
      omega
    · show s.fresh_inserts = (s.order.eraseIdx i).length + (s.removals + 1) + s.evictions
      rw [List.length_eraseIdx_of_lt hi]
      omega
  · exact ⟨hsorted, halign, hlen, hacc⟩

theorem stepPool_inv (score : VerifiedTransaction → Score)
    (choose : VerifiedTransaction → VerifiedTransaction → ScoringChoice)
    (max_count : Nat) (s : PoolState Score) (op : PoolOp)
    (hinv : PoolInv score max_count s) :
    PoolInv score max_count (stepPool score choose max_count s op) := by
  cases op with
  | insert tx => exact insertTx_inv score choose max_count s tx hinv
  | remove h => exact removeTx_inv s h score max_count hinv

theorem initState_inv (score : VerifiedTransaction → Score) (max_count : Nat) :
    PoolInv score max_count (initState Score) :=
  ⟨List.sorted_nil, rfl, Nat.zero_le _, rfl⟩

theorem foldl_stepPool_inv (score : VerifiedTransaction → Score)
    (choose : VerifiedTransaction → VerifiedTransaction → ScoringChoice)
    (max_count : Nat) (ops : List PoolOp) (s : PoolState Score)
    (hinv : PoolInv score max_count s) :
    PoolInv score max_count
      (ops.foldl (stepPool score choose max_count) s) := by
  induction ops generalizing s with
  | nil => exact hinv
  | cons op rest ih =>
    exact ih _ (stepPool_inv score choose max_count s op hinv)

theorem runPool_inv (score : VerifiedTransaction → Score)
    (choose : VerifiedTransaction → VerifiedTransaction → ScoringChoice)
    (max_count : Nat) (ops : List PoolOp) :
    PoolInv score max_count (runPool score choose max_count ops) :=
  foldl_stepPool_inv score choose max_count ops (initState Score)
    (initState_inv score max_count)

end PoolLemmas

/-!
## Claim theorems
-/

/-- C1: for every pool state reachable by a finite sequence of insert and
removal operations from the empty pool — i.e. after every completed
operation — the global order is sorted best-first according to the Scoring
Policy's compare, the score table has the same length as the global order,
and it is index-aligned with it: `score[i]` is the score of
`global_order[i]`. -/
theorem global_order_sorted_and_score_table_aligned
    {Score : Type} [LinearOrder Score] (score : VerifiedTransaction → Score)
    (choose : VerifiedTransaction → VerifiedTransaction → ScoringChoice)
    (max_count : Nat) (ops : List PoolOp) :
    (runPool score choose max_count ops).order.Sorted (bestFirst score)
    ∧ (runPool score choose max_count ops).scores.length =
        (runPool score choose max_count ops).order.length
    ∧ ∀ i : Nat,
        (runPool score choose max_count ops).scores[i]? =
          ((runPool score choose max_count ops).order[i]?).map score := by
  obtain ⟨hsorted, halign, _, _⟩ := runPool_inv score choose max_count ops
  refine ⟨hsorted, ?_, ?_⟩
  · rw [halign, List.length_map]
  · intro i
    rw [halign, List.getElem?_map]

/-- C2: after every finite sequence of insert and removal operations, the
pool size equals the number of successful fresh inserts minus the number of
removals plus evictions (stated both as the truncated subtraction and as the
overflow-free additive identity), and the pool size never exceeds the
configured maximum transaction count. -/
theorem pool_size_accounting_and_capacity
    {Score : Type} [LinearOrder Score] (score : VerifiedTransaction → Score)
    (choose : VerifiedTransaction → VerifiedTransaction → ScoringChoice)
    (max_count : Nat) (ops : List PoolOp) :
    (runPool score choose max_count ops).order.length =
      (runPool score choose max_count ops).fresh_inserts -
        ((runPool score choose max_count ops).removals +
          (runPool score choose max_count ops).evictions)
    ∧ (runPool score choose max_count ops).fresh_inserts =
        (runPool score choose max_count ops).order.length +
          ((runPool score choose max_count ops).removals +
            (runPool score choose max_count ops).evictions)
    ∧ (runPool score choose max_count ops).order.length ≤ max_count := by
  obtain ⟨_, _, hlen, hacc⟩ := runPool_inv score choose max_count ops
  exact ⟨by omega, by omega, hlen⟩

/-- C3: the boolean-to-Readiness conversion maps true to Ready and false to
Future, and never produces Stalled. -/
theorem readiness_fromBool_ready_future_never_stalled :
    ∀ b : Bool,
      (Readiness.fromBool b = Readiness.Ready ↔ b = true)
      ∧ (Readiness.fromBool b = Readiness.Future ↔ b = false)
      ∧ Readiness.fromBool b ≠ Readiness.Stalled := by
  decide

/-- C4 (counterexample): the claim that the record's reported resource cost
is a field distinct from its nonce is false — `mem_usage` is determined by
the nonce alone, so there are no two records agreeing on the nonce yet
reporting different resource costs. -/
theorem mem_usage_not_distinct_from_nonce : ¬ memUsageDistinctFromNonce := by
  rintro ⟨t1, t2, hn, hm⟩
  exact hm (congrArg (fun n => n.val) hn)

/-- C4 (amended): the Verified Transaction Record consists exactly of the
content hash, nonce, the price/fee fields gas_price and gas, the sender
identity and the insertion sequence number — an immutable value fully
determined by those six fields — and its reported resource cost is not a
distinct field: `mem_usage` returns the nonce. -/
theorem verified_transaction_record_fields (t : VerifiedTransaction) :
    t = ⟨t.hash, t.nonce, t.gas_price, t.gas, t.sender, t.insertion_id⟩
    ∧ t.mem_usage = t.nonce.val :=
  ⟨rfl, rfl⟩

/-- C5 (counterexample): the claim that the Score type is required to
support only total ordering, cloning and default construction is false —
the trait bound also demands `fmt::Debug`. -/
theorem score_bound_demands_more_than_ord_clone_default :
    ¬ scoreDemandsOnlyOrdCloneDefault := by
  intro h
  rcases h ScoreCapability.debugFmt (by decide) with h1 | h1 | h1 <;>
    exact ScoreCapability.noConfusion h1

/-- C5 (amended): the Score type's bound demands exactly four capabilities
— total ordering, cloning, default construction and Debug formatting: every
one of these capabilities appears in the bound, and by exhaustiveness of
`ScoreCapability` the bound contains nothing else. -/
theorem score_bound_exactly_ord_clone_default_debug :
    ∀ c : ScoreCapability, c ∈ scoringScoreBounds := by
  intro c
  cases c <;> decide

/-- C6: the Listener interface's five lifecycle hooks (added, rejected,
dropped, invalid, cancelled) each have a no-op default implementation —
for every transaction argument the default hook returns the listener state
unchanged — and NoopListener, which overrides none of them, is exactly the
all-defaults listener. -/
theorem listener_default_hooks_are_noops (S : Type) (st : S)
    (tx : VerifiedTransaction) (old : Option VerifiedTransaction) :
    ((Listener.defaults S).added st tx old = st
      ∧ (Listener.defaults S).rejected st tx = st
      ∧ (Listener.defaults S).dropped st tx = st
      ∧ (Listener.defaults S).invalid st tx = st
      ∧ (Listener.defaults S).cancelled st tx = st)
    ∧ NoopListener = Listener.defaults Unit :=
  ⟨⟨rfl, rfl, rfl, rfl, rfl⟩, rfl⟩

/-- C7: for every raw transaction, a verifier's `verify_transaction`
returns either a verified record or a verification error — exactly one of
the two, as an explicit result value. -/
theorem verifier_returns_record_or_error (E : Type) (v : Verifier E)
    (tx : UnverifiedTransaction) :
    ((∃ r, v.verify_transaction tx = Except.ok r)
      ∨ (∃ e, v.verify_transaction tx = Except.error e))
    ∧ ¬ ((∃ r, v.verify_transaction tx = Except.ok r)
      ∧ (∃ e, v.verify_transaction tx = Except.error e)) := by
  constructor
  · cases h : v.verify_transaction tx with
    | ok r => exact Or.inl ⟨r, rfl⟩
    | error e => exact Or.inr ⟨e, rfl⟩
  · rintro ⟨⟨r, hr⟩, ⟨e, he⟩⟩
    rw [hr] at he
    exact Except.noConfusion he

/-- C8: `mem_usage` returns the record's nonce converted to usize, and the
result is independent of the gas and gas_price fields. -/
theorem mem_usage_is_nonce_and_ignores_gas (t : VerifiedTransaction)
    (gp g : U256) :
    t.mem_usage = t.nonce.val
    ∧ ({ t with gas_price := gp, gas := g } : VerifiedTransaction).mem_usage
        = t.mem_usage :=
  ⟨rfl, rfl⟩

/-- C9: `NoopVerifier::verify_transaction` is `unimplemented!()` — it panics
on every input (modelled as `none`), so there exists no input on which it
returns a verified record or an error value. -/
theorem noop_verifier_never_returns :
    ∀ tx : UnverifiedTransaction,
      noopVerifierRun tx = none
      ∧ (¬ ∃ r, noopVerifierRun tx = some (Except.ok r))
      ∧ (¬ ∃ e, noopVerifierRun tx = some (Except.error e)) := by
  intro tx
  refine ⟨rfl, ?_, ?_⟩
  · rintro ⟨r, hr⟩
    exact Option.noConfusion hr
  · rintro ⟨e, he⟩
    exact Option.noConfusion he

/-- C10: every mutable closure from a transaction reference to a Readiness
verdict is a readiness oracle through the blanket impl, and its `is_ready`
is exactly application of the closure. -/
theorem closure_oracle_is_ready_is_application (S : Type)
    (f : S → VerifiedTransaction → Readiness × S) (st : S)
    (tx : VerifiedTransaction) :
    (readyOfClosure S f).is_ready st tx = f st tx :=
  rfl

end TxPool
